import Mathlib

/-!
# Verification of the trends ingestion / forecasting core

Shallow embedding of the keyword-interest ingestion pipeline
(`Terraform/trends_daily/handler.py`), the gated two-stage forecaster
(`Terraform/Glue/TrendGlueJob.py`) and the simple forecaster entry point
(`Terraform/trends_forecast/handler.py`).

Modelling conventions:
* Python/NumPy floating point values are modelled as exact rationals (`ℚ`).
* Transcendental library functions (`np.exp`, `np.sin`, `np.cos`, `np.pi`)
  have no exact rational counterpart; they are supplied as an abstract
  `Prims` bundle, and theorems that need a property of the real functions
  (e.g. positivity of `exp`) take it as an explicit hypothesis.
* `np.linalg.solve` on the (always nonsingular, ridge-regularised) normal
  equations is modelled relationally: a returned weight vector is any vector
  satisfying the linear system, which is exactly the contract of a successful
  solve in exact arithmetic.
* Dates are modelled as integers (day numbers); a pandas dataframe of
  day × column cells is a `GFrame` whose missing (NaN) cells are `none`.
-/

attribute [local semireducible] Rat.add Rat.sub Rat.mul Rat.inv

/-- Abstract numeric primitives standing for `np.exp`, `np.sin`, `np.cos`,
`np.pi` in the float code. -/
structure Prims where
  exp : ℚ → ℚ
  sin : ℚ → ℚ
  cos : ℚ → ℚ
  pi : ℚ

/-- `np.clip(x, lo, hi) = min(hi, max(lo, x))`. -/
def clipQ (x lo hi : ℚ) : ℚ := min hi (max lo x)

/-- `np.dot` on equal-length vectors represented as lists. -/
def dotQ (a b : List ℚ) : ℚ := (List.zipWith (· * ·) a b).sum

/-- `EPS_ZERO = 1e-9` from `TrendGlueJob.py`. -/
def EPS_ZERO : ℚ := 1 / 1000000000

/-- `DYN_TAU_K = 0.30` from `TrendGlueJob.py`. -/
def DYN_TAU_K : ℚ := 3 / 10

/-- `gate_prob(xrow, w_gate)` from `TrendGlueJob.py`:
`z = dot(xrow, w_gate); 1.0 if z > 50; 0.0 if z < -50; else 1/(1+exp(-z))`. -/
def gateProb (P : Prims) (xrow wGate : List ℚ) : ℚ :=
  let z := dotQ xrow wGate
  if 50 < z then 1
  else if z < -50 then 0
  else 1 / (1 + P.exp (-z))

/-- `from_logit_y(z)` from `TrendGlueJob.py`:
`p = 1/(1+exp(-z)); clip(101*p - 0.5, 0, 100)`. -/
def fromLogitY (P : Prims) (z : ℚ) : ℚ :=
  let p := 1 / (1 + P.exp (-z))
  clipQ (101 * p - 1/2) 0 100

/-- `soft_cap = max(max14*1.25, prev_nz*1.5, 10.0)` from
`recursive_forecast_gate`. -/
def softCap (m14 pnz : ℚ) : ℚ := max (max (m14 * (5/4)) (pnz * (3/2))) 10

/-- One emitted prediction of `recursive_forecast_gate`
(`TrendGlueJob.py`, body of the horizon loop) as a function of the
day-adaptive threshold `tau_dyn`, for a fixed standardized feature row.
`SOFT_GATE = True` and `clip_minmax = (0.0, 100.0)` are the module constants,
so the emitted value is
`min(100, max(0, 0 if p < tau_dyn else min(from_logit_y(dot(x,w_reg)) * clip((p-tau_dyn)/max(1e-6,1-tau_dyn),0,1), soft_cap)))`. -/
def stepEmit (P : Prims) (xstd wGate wReg : List ℚ) (m14 pnz tauDyn : ℚ) : ℚ :=
  let p := gateProb P xstd wGate
  let yhat :=
    if p < tauDyn then 0
    else
      let zhat := dotQ xstd wReg
      let yhatRaw := fromLogitY P zhat
      let s := clipQ ((p - tauDyn) / max (1/1000000) (1 - tauDyn)) 0 1
      min (yhatRaw * s) (softCap m14 pnz)
  min 100 (max 0 yhat)

-- ---------------------------------------------------------------------------
-- helper lemmas about gateProb / stepEmit
-- ---------------------------------------------------------------------------

theorem gateProb_nonneg (P : Prims) (hpos : ∀ z, 0 < P.exp z) (x w : List ℚ) :
    0 ≤ gateProb P x w := by
  unfold gateProb
  dsimp only
  split_ifs with h1 h2
  · norm_num
  · norm_num
  · have he : 0 < P.exp (-(dotQ x w)) := hpos _
    positivity

theorem gateProb_le_one (P : Prims) (hpos : ∀ z, 0 < P.exp z) (x w : List ℚ) :
    gateProb P x w ≤ 1 := by
  unfold gateProb
  dsimp only
  split_ifs with h1 h2
  · norm_num
  · norm_num
  · have he : 0 < P.exp (-(dotQ x w)) := hpos _
    rw [div_le_one (by linarith)]
    linarith

theorem fromLogitY_nonneg (P : Prims) (z : ℚ) : 0 ≤ fromLogitY P z := by
  unfold fromLogitY clipQ
  dsimp only
  rcases le_total (100 : ℚ) (max 0 (101 * (1 / (1 + P.exp (-z))) - 1/2)) with h | h
  · rw [min_eq_left h]; norm_num
  · rw [min_eq_right h]; exact le_max_left _ _

theorem stepEmit_nonneg (P : Prims) (x wg wr : List ℚ) (m14 pnz td : ℚ) :
    0 ≤ stepEmit P x wg wr m14 pnz td := by
  unfold stepEmit
  dsimp only
  rcases le_total (100 : ℚ) (max 0 _) with h | h
  · rw [min_eq_left h]; norm_num
  · rw [min_eq_right h]; exact le_max_left _ _

theorem stepEmit_le_100 (P : Prims) (x wg wr : List ℚ) (m14 pnz td : ℚ) :
    stepEmit P x wg wr m14 pnz td ≤ 100 :=
  min_le_left _ _

/-- C10: the gate probability is total and bounded: for every feature row and
weight vector (any rational values) it lies in `[0,1]`; it is exactly `1`
when the linear score exceeds `50` and exactly `0` when it is below `-50`.
The only analytic fact used is positivity of the exponential, which holds for
the real `np.exp`. -/
theorem C10_gate_prob_total_bounded (P : Prims) (hpos : ∀ z, 0 < P.exp z)
    (xrow wGate : List ℚ) :
    0 ≤ gateProb P xrow wGate ∧ gateProb P xrow wGate ≤ 1 ∧
    (50 < dotQ xrow wGate → gateProb P xrow wGate = 1) ∧
    (dotQ xrow wGate < -50 → gateProb P xrow wGate = 0) := by
  refine ⟨gateProb_nonneg P hpos xrow wGate, gateProb_le_one P hpos xrow wGate, ?_, ?_⟩
  · intro h
    unfold gateProb
    simp [h]
  · intro h
    have h' : ¬ (50 : ℚ) < dotQ xrow wGate := by linarith
    unfold gateProb
    simp [h, h']

/-- Witness for C10 at a concrete input. -/
theorem C10_witness :
    (∀ z, 0 < (Prims.mk (fun _ => 1) (fun _ => 0) (fun _ => 0) 0).exp z) ∧
    0 ≤ gateProb (Prims.mk (fun _ => 1) (fun _ => 0) (fun _ => 0) 0) [1, 2] [3, 4] ∧
    gateProb (Prims.mk (fun _ => 1) (fun _ => 0) (fun _ => 0) 0) [1, 2] [3, 4] ≤ 1 := by
  refine ⟨fun z => one_pos, ?_, ?_⟩
  · exact (C10_gate_prob_total_bounded _ (fun z => one_pos) [1, 2] [3, 4]).1
  · exact (C10_gate_prob_total_bounded _ (fun z => one_pos) [1, 2] [3, 4]).2.1

-- ---------------------------------------------------------------------------
-- C5: monotonicity of the emitted prediction in tau_dyn
-- ---------------------------------------------------------------------------

theorem clipQ_mono (lo hi : ℚ) {x y : ℚ} (h : x ≤ y) :
    clipQ x lo hi ≤ clipQ y lo hi := by
  unfold clipQ
  exact min_le_min le_rfl (max_le_max le_rfl h)

/-- C5: for a single recursive-forecast step with fixed standardized feature
row, gate weights and regression weights (hence fixed gate probability `p`
and raw regression output), the emitted prediction is monotonically
non-increasing in the dynamic threshold `tau_dyn` over its clipped range
`[0.05, 0.95]`; in particular raising `tau_dyn` can never turn a zero
prediction into a nonzero one. -/
theorem C5_step_antitone_in_tau_dyn (P : Prims) (hpos : ∀ z, 0 < P.exp z)
    (xstd wGate wReg : List ℚ) (m14 pnz : ℚ) (t1 t2 : ℚ)
    (h1 : 1/20 ≤ t1) (hle : t1 ≤ t2) (h2 : t2 ≤ 19/20) :
    stepEmit P xstd wGate wReg m14 pnz t2 ≤ stepEmit P xstd wGate wReg m14 pnz t1 ∧
    (stepEmit P xstd wGate wReg m14 pnz t1 = 0 →
      stepEmit P xstd wGate wReg m14 pnz t2 = 0) := by
  have hmain : stepEmit P xstd wGate wReg m14 pnz t2 ≤ stepEmit P xstd wGate wReg m14 pnz t1 := by
    set p := gateProb P xstd wGate with hp
    have hp1 : p ≤ 1 := gateProb_le_one P hpos xstd wGate
    unfold stepEmit
    rw [← hp]
    dsimp only
    by_cases c1 : p < t1
    · have c2 : p < t2 := lt_of_lt_of_le c1 hle
      simp [c1, c2]
    · by_cases c2 : p < t2
      · simp only [c1, c2, if_true, if_false]
        have hnn : (0 : ℚ) ≤ max 0
            (min (fromLogitY P (dotQ xstd wReg) *
              clipQ ((p - t1) / max (1/1000000) (1 - t1)) 0 1) (softCap m14 pnz)) :=
          le_max_left _ _
        calc min 100 (max 0 (0:ℚ)) = 0 := by norm_num
        _ ≤ _ := le_min (by norm_num) hnn
      · simp only [c1, c2, if_false]
        have hd1 : max (1/1000000 : ℚ) (1 - t1) = 1 - t1 := by
          rw [max_eq_right]; linarith
        have hd2 : max (1/1000000 : ℚ) (1 - t2) = 1 - t2 := by
          rw [max_eq_right]; linarith
        have hpos1 : (0:ℚ) < 1 - t1 := by linarith
        have hpos2 : (0:ℚ) < 1 - t2 := by linarith
        have hdiv : (p - t2) / (1 - t2) ≤ (p - t1) / (1 - t1) := by
          rw [div_le_div_iff₀ hpos2 hpos1]
          nlinarith [mul_nonneg (sub_nonneg.2 hp1) (sub_nonneg.2 hle)]
        have hs : clipQ ((p - t2) / max (1/1000000) (1 - t2)) 0 1 ≤
            clipQ ((p - t1) / max (1/1000000) (1 - t1)) 0 1 := by
          rw [hd1, hd2]; exact clipQ_mono 0 1 hdiv
        have hraw : (0:ℚ) ≤ fromLogitY P (dotQ xstd wReg) := fromLogitY_nonneg P _
        have hmul : fromLogitY P (dotQ xstd wReg) *
            clipQ ((p - t2) / max (1/1000000) (1 - t2)) 0 1 ≤
            fromLogitY P (dotQ xstd wReg) *
            clipQ ((p - t1) / max (1/1000000) (1 - t1)) 0 1 :=
          mul_le_mul_of_nonneg_left hs hraw
        exact min_le_min le_rfl (max_le_max le_rfl (min_le_min hmul le_rfl))
  refine ⟨hmain, fun hz => le_antisymm (hz ▸ hmain) (stepEmit_nonneg P xstd wGate wReg m14 pnz t2)⟩

/-- Witness for C5 at a concrete input. -/
theorem C5_witness :
    ((1:ℚ)/20 ≤ 1/20 ∧ (1:ℚ)/20 ≤ 19/20 ∧ (19:ℚ)/20 ≤ 19/20) ∧
    stepEmit (Prims.mk (fun _ => 1) (fun _ => 0) (fun _ => 0) 0) [1] [0] [0] 0 0 (19/20) ≤
    stepEmit (Prims.mk (fun _ => 1) (fun _ => 0) (fun _ => 0) 0) [1] [0] [0] 0 0 (1/20) :=
  ⟨⟨le_rfl, by norm_num, le_rfl⟩,
    (C5_step_antitone_in_tau_dyn _ (fun z => one_pos) [1] [0] [0] 0 0 (1/20) (19/20)
      le_rfl (by norm_num) le_rfl).1⟩

-- ---------------------------------------------------------------------------
-- build_feature_row / recursive_forecast_gate (TrendGlueJob.py)
-- ---------------------------------------------------------------------------

/-- `LAGS = [1,2,3,4,5,6,7,14,21,28,35]` from `TrendGlueJob.py`. -/
def LAGS : List ℕ := [1, 2, 3, 4, 5, 6, 7, 14, 21, 28, 35]

/-- `tmp.iloc[-L]` with the fallback `tmp.iloc[0]` used by `build_feature_row`
when the series is shorter than the lag. -/
def ilocNeg (l : List ℚ) (L : ℕ) : ℚ :=
  if L ≤ l.length then (l.drop (l.length - L)).headD 0 else l.headD 0

/-- The last `k` values of a series (the whole series when shorter), i.e.
`vals[-k:]`. -/
def lastVals (l : List ℚ) (k : ℕ) : List ℚ := l.drop (l.length - k)

/-- `np.mean` (the argument is nonempty wherever the source calls it). -/
def meanQ (l : List ℚ) : ℚ := l.sum / l.length

/-- `np.max` on a nonempty list (0 on the empty list, unreachable in source). -/
def maxQ (l : List ℚ) : ℚ :=
  match l with
  | [] => 0
  | a :: t => t.foldl max a

/-- `trailing_zero_run(vals, eps=EPS_ZERO, cap=30)` from `TrendGlueJob.py`:
count trailing values with `|v| < eps`, capped at 30, returned as float. -/
def trailingZeroRun (vals : List ℚ) : ℚ :=
  min ((vals.reverse.takeWhile (fun v => |v| < EPS_ZERO)).length : ℚ) 30

/-- The `prev_nz` feature of `build_feature_row`: last value strictly above
`EPS_ZERO`, or 0. -/
def prevNz (vals : List ℚ) : ℚ :=
  match vals.reverse.find? (fun v => EPS_ZERO < v) with
  | some v => v
  | none => 0

/-- The `ema7` feature of `build_feature_row`: `alpha = 2/(7+1)`, folded over
the last 50 values starting from 0. -/
def ema7Feat (vals : List ℚ) : ℚ :=
  (lastVals vals 50).foldl (fun e v => (1/4) * v + (3/4) * e) 0

/-- `build_feature_row(next_ts, tmp, LAGS, 7, True, t_counter)` from
`TrendGlueJob.py`, already composed with the bias and the fixed training
column order of `make_design_matrix` (`x = [1.0] + [row[c] for c in cols_order]`):
lags, `ma7`, weekday one-hots `wd_1..wd_6` (`wd` is the weekday of `next_ts`),
`z_lag1`, `z_run`, `prev_nz`, `max14`, `ema7`, Fourier pairs `s1,c1,s2,c2`
(`FOURIER_PERIOD = 7`, `FOURIER_K = 2`). -/
def featureVec (P : Prims) (wd : ℕ) (tmp : List ℚ) (t : ℤ) : List ℚ :=
  [1] ++ LAGS.map (fun L => ilocNeg tmp L)
    ++ [meanQ (lastVals tmp 7)]
    ++ (List.range' 1 6).map (fun j => if wd = j then (1 : ℚ) else 0)
    ++ [if |ilocNeg tmp 1| < EPS_ZERO then (1 : ℚ) else 0,
        trailingZeroRun tmp, prevNz tmp, maxQ (lastVals tmp 14), ema7Feat tmp]
    ++ [P.sin (2 * P.pi * 1 * t / 7), P.cos (2 * P.pi * 1 * t / 7),
        P.sin (2 * P.pi * 2 * t / 7), P.cos (2 * P.pi * 2 * t / 7)]

/-- Tail of `x_std[1:] = (x[1:] - mu[1:]) / np.where(|sd[1:]| < 1e-12, 1.0, sd[1:])`. -/
def stdTail : List ℚ → List ℚ → List ℚ → List ℚ
  | x :: xs, m :: ms, s :: ss =>
      (x - m) / (if |s| < 1/1000000000000 then 1 else s) :: stdTail xs ms ss
  | _, _, _ => []

/-- Standardization of the feature row in `recursive_forecast_gate`: the bias
entry is untouched, the rest standardized with the train-time `mu, sd`
(arrays are length-aligned in the source). -/
def stdApply (x mu sd : List ℚ) : List ℚ :=
  match x, mu, sd with
  | x0 :: xs, _ :: ms, _ :: ss => x0 :: stdTail xs ms ss
  | _, _, _ => x

/-- `recursive_forecast_gate(y_hist, horizon, ...)` from `TrendGlueJob.py`:
step-by-step autoregressive forecast. `vals` are the history values (oldest
first), `wd` the weekday of the next (first forecast) day, `tStart` the
Fourier time counter. Per step: build the feature row, standardize, compute
`tau_dyn = clip(tau + DYN_TAU_K * zr/(zr+4), 0.05, 0.95)`, emit the gated /
soft-scaled / capped / clipped prediction, append it to the history. -/
def recursiveForecastGate (P : Prims) (vals : List ℚ) (wd : ℕ) (tStart : ℤ)
    (horizon : ℕ) (wGate wReg mu sd : List ℚ) (tau : ℚ) : List ℚ :=
  match horizon with
  | 0 => []
  | h + 1 =>
    let x := featureVec P wd vals tStart
    let xstd := stdApply x mu sd
    let zr := trailingZeroRun vals
    let tauDyn := clipQ (tau + DYN_TAU_K * (zr / (zr + 4))) (1/20) (19/20)
    let yhat := stepEmit P xstd wGate wReg (maxQ (lastVals vals 14)) (prevNz vals) tauDyn
    yhat :: recursiveForecastGate P (vals ++ [yhat]) ((wd + 1) % 7) (tStart + 1) h
      wGate wReg mu sd tau

/-- Executable floor of a rational (`⌊q⌋`, kernel-reducible form). -/
def floorQ (q : ℚ) : ℤ := q.num / q.den

theorem floorQ_eq (q : ℚ) : floorQ q = ⌊q⌋ := Rat.floor_def.symm

/-- Python 3 `round` (banker's rounding, half to even) composed with `int()`,
as used by both forecast upserts (`int(round(yhat))`) and the interest upsert
(`int(round(float(val)))`). -/
def pyRound (q : ℚ) : ℤ :=
  let f := floorQ q
  let r := q - f
  if r < 1/2 then f
  else if 1/2 < r then f + 1
  else if f % 2 = 0 then f else f + 1

/-- The integer forecast values written by `upsert_forecasts`
(`TrendGlueJob.py` / `trends_forecast/handler.py`): one `int(round(yhat))`
per predicted day. -/
def upsertForecastVals (preds : List ℚ) : List ℤ := preds.map pyRound

theorem pyRound_bounds {q : ℚ} (h0 : 0 ≤ q) (h100 : q ≤ 100) :
    0 ≤ pyRound q ∧ pyRound q ≤ 100 := by
  have hf0 : (0 : ℤ) ≤ ⌊q⌋ := Int.le_floor.2 (by exact_mod_cast h0)
  have hf100 : ⌊q⌋ ≤ 100 := by
    have h := Int.floor_le_floor h100
    simpa using h
  unfold pyRound
  rw [floorQ_eq]
  dsimp only
  split_ifs with c1 c2 c3
  · exact ⟨hf0, hf100⟩
  · -- q - ⌊q⌋ > 1/2, so ⌊q⌋ < 100 (else q > 100.5)
    refine ⟨by linarith, ?_⟩
    by_contra hcon
    have h1 : ⌊q⌋ = 100 := le_antisymm hf100 (by omega)
    have h2 : (⌊q⌋ : ℚ) = 100 := by exact_mod_cast h1
    rw [h2] at c2
    linarith
  · exact ⟨hf0, hf100⟩
  · refine ⟨by linarith, ?_⟩
    by_contra hcon
    have h1 : ⌊q⌋ = 100 := le_antisymm hf100 (by omega)
    have h2 : (⌊q⌋ : ℚ) = 100 := by exact_mod_cast h1
    rw [h2] at c1 c2
    -- r = 1/2 with floor 100 forces q = 100.5 > 100
    have : q - 100 = 1/2 := by linarith
    linarith

theorem recursiveForecastGate_mem_bounds (P : Prims) (vals : List ℚ) (wd : ℕ)
    (tStart : ℤ) (horizon : ℕ) (wGate wReg mu sd : List ℚ) (tau : ℚ) :
    ∀ y ∈ recursiveForecastGate P vals wd tStart horizon wGate wReg mu sd tau,
      0 ≤ y ∧ y ≤ 100 := by
  induction horizon generalizing vals wd tStart with
  | zero => intro y hy; simp [recursiveForecastGate] at hy
  | succ h ih =>
    intro y hy
    rw [recursiveForecastGate] at hy
    simp only [List.mem_cons] at hy
    rcases hy with rfl | hy
    · exact ⟨stepEmit_nonneg _ _ _ _ _ _ _, stepEmit_le_100 _ _ _ _ _ _ _⟩
    · exact ih _ _ _ y hy

-- ---------------------------------------------------------------------------
-- dataframes, aggregation, incremental filter, upsert (trends_daily/handler.py)
-- ---------------------------------------------------------------------------

/-- A pandas dataframe indexed by day with named columns; a missing (NaN)
cell is `none`. -/
structure GFrame where
  days : List ℤ
  cols : List String
  cell : ℤ → String → Option ℚ

/-- `max(axis=1)` over a nonempty list of present values, `none` when all
values are missing (pandas skipna max). -/
def maxRow (vs : List ℚ) : Option ℚ :=
  match vs with
  | [] => none
  | a :: t => some (t.foldl max a)

/-- `groups_from_terms_df(df_terms, groups)` from `trends_daily/handler.py`:
one column per group slug whose matched raw-term columns exist in the terms
frame, valued as the pointwise maximum of those columns; groups with no
matched columns are dropped. -/
def groupsFromTermsDf (df : GFrame) (groups : List (String × List String)) : GFrame :=
  { days := df.days
    cols := (groups.filter (fun g => g.2.any (fun t => t ∈ df.cols))).map (·.1)
    cell := fun d g =>
      match groups.find? (fun p => p.1 = g) with
      | none => none
      | some p =>
        let matched := p.2.filter (· ∈ df.cols)
        if matched.isEmpty then none
        else maxRow (matched.filterMap (fun c => df.cell d c)) }

/-- The per-cell mask of `filter_new_rows_per_slug`: a cell `(d, s)` is
blanked (set to NaN) when the slug has a recorded last persisted day `D`
and `d ≤ D`. -/
def maskedCell (lastDays : String → Option ℤ) (g : GFrame) (d : ℤ) (s : String) : Option ℚ :=
  match lastDays s with
  | some D => if d ≤ D then none else g.cell d s
  | none => g.cell d s

/-- `filter_new_rows_per_slug(gdf, last_days)` from `trends_daily/handler.py`:
mask already-persisted days per slug, then `dropna(how="all", axis=1)`
followed by `dropna(how="all", axis=0)`. -/
def filterNewRows (g : GFrame) (lastDays : String → Option ℤ) : GFrame :=
  let keptCols := g.cols.filter (fun s => g.days.any (fun d => (maskedCell lastDays g d s).isSome))
  let keptRows := g.days.filter (fun d => keptCols.any (fun s => (maskedCell lastDays g d s).isSome))
  { days := keptRows, cols := keptCols, cell := maskedCell lastDays g }

/-- The `(day, slug)` pairs actually executed by the `upsert_rows` loop
(`trends_daily/handler.py`): all cells of the frame except the masked (NaN)
ones, days outer, slugs inner. -/
def upsertKeys (g : GFrame) : List (ℤ × String) :=
  (g.days.product g.cols).filter (fun p => (g.cell p.1 p.2).isSome)

/-- The rows written by `upsert_rows`: for each non-NaN cell, the interest
value is `int(round(float(val)))` with no clamping. -/
def writtenRows (g : GFrame) : List (ℤ × String × ℤ) :=
  (upsertKeys g).map (fun p => (p.1, p.2, pyRound ((g.cell p.1 p.2).getD 0)))

/-- C1 counterexample: the ingestion upsert applies no clamping, so a fetched
terms dataframe holding the value 150 for term `t` on day 0 (reachable from
the unclipped fast/batched fetch paths, e.g. after scale correction) leads
`upsert_rows` to persist interest = 150 > 100 for group `g`, refuting the
claimed `[0,100]` range invariant for ingestion writes. -/
theorem C1_counterexample :
    ((0 : ℤ), ("g" : String), (150 : ℤ)) ∈
      writtenRows (filterNewRows
        (groupsFromTermsDf
          ⟨[0], ["t"], fun d c => if d = 0 ∧ c = "t" then some 150 else none⟩
          [("g", ["t"])])
        (fun _ => none)) ∧
    ¬ ((150 : ℤ) ≤ 100) := by
  constructor
  · decide
  · decide

/-- C1 (amended): every forecast value passed to the persistence upsert lies
in `[0,100]`: each recursive-forecast step clips its emitted prediction to
`[0,100]` (`clip_minmax`), and the integer rounding `int(round(yhat))` of
`upsert_forecasts` preserves those bounds. The ingestion upsert, by contrast,
applies no clamping, so an out-of-range fetched interest value is persisted
unchanged (see the counterexample). -/
theorem C1_amended_forecast_range (P : Prims) (vals : List ℚ) (wd : ℕ)
    (tStart : ℤ) (horizon : ℕ) (wGate wReg mu sd : List ℚ) (tau : ℚ) :
    ∀ v ∈ upsertForecastVals
        (recursiveForecastGate P vals wd tStart horizon wGate wReg mu sd tau),
      0 ≤ v ∧ v ≤ 100 := by
  intro v hv
  unfold upsertForecastVals at hv
  rcases List.mem_map.1 hv with ⟨y, hy, rfl⟩
  have hb := recursiveForecastGate_mem_bounds P vals wd tStart horizon wGate wReg mu sd tau y hy
  exact pyRound_bounds hb.1 hb.2

/-- Witness for C1's amended theorem at a concrete input. -/
theorem C1_amended_witness :
    (10 : ℤ) ∈ upsertForecastVals
      (recursiveForecastGate (Prims.mk (fun _ => 1) (fun _ => 0) (fun _ => 0) 0)
        [0] 0 0 1 [0] [0] [] [] 0) ∧
    0 ≤ (10 : ℤ) ∧ (10 : ℤ) ≤ 100 :=
  ⟨by decide,
    C1_amended_forecast_range (Prims.mk (fun _ => 1) (fun _ => 0) (fun _ => 0) 0)
      [0] 0 0 1 [0] [0] [] [] 0 10 (by decide)⟩

-- ---------------------------------------------------------------------------
-- C2: incremental filter correctness
-- ---------------------------------------------------------------------------

theorem mem_upsertKeys_iff (g : GFrame) (d : ℤ) (s : String) :
    (d, s) ∈ upsertKeys g ↔ d ∈ g.days ∧ s ∈ g.cols ∧ (g.cell d s).isSome := by
  unfold upsertKeys
  rw [List.mem_filter, List.pair_mem_product]
  tauto

/-- C2: the row filter applied before the ingestion upsert removes every cell
`(day, slug)` with `day ≤ D` where `D` is the slug's last persisted day, so
the subsequent `upsert_rows` loop never writes a row with `day ≤ D` for an
existing slug; while for a slug absent from the last-day map every computed
(non-NaN) cell survives the mask and both `dropna` passes and is written with
its original value. -/
theorem C2_filter_new_rows (g : GFrame) (lastDays : String → Option ℤ) :
    (∀ d s, (d, s) ∈ upsertKeys (filterNewRows g lastDays) →
      ∀ D, lastDays s = some D → D < d) ∧
    (∀ d s v, lastDays s = none → d ∈ g.days → s ∈ g.cols → g.cell d s = some v →
      (d, s) ∈ upsertKeys (filterNewRows g lastDays) ∧
      (filterNewRows g lastDays).cell d s = some v) := by
  constructor
  · intro d s hmem D hD
    rcases (mem_upsertKeys_iff _ d s).1 hmem with ⟨-, -, hcell⟩
    by_contra hlt
    push_neg at hlt
    have : (filterNewRows g lastDays).cell d s = none := by
      show maskedCell lastDays g d s = none
      unfold maskedCell
      rw [hD]
      simp [hlt]
    rw [this] at hcell
    simp at hcell
  · intro d s v hnone hd hs hv
    have hmc : maskedCell lastDays g d s = some v := by
      unfold maskedCell
      rw [hnone, hv]
    have hcol : s ∈ (filterNewRows g lastDays).cols := by
      show s ∈ g.cols.filter _
      rw [List.mem_filter]
      refine ⟨hs, ?_⟩
      rw [List.any_eq_true]
      exact ⟨d, hd, by rw [hmc]; rfl⟩
    have hrow : d ∈ (filterNewRows g lastDays).days := by
      show d ∈ g.days.filter _
      rw [List.mem_filter]
      refine ⟨hd, ?_⟩
      rw [List.any_eq_true]
      exact ⟨s, hcol, by rw [hmc]; rfl⟩
    refine ⟨(mem_upsertKeys_iff _ d s).2 ⟨hrow, hcol, ?_⟩, hmc⟩
    rw [show (filterNewRows g lastDays).cell d s = maskedCell lastDays g d s from rfl, hmc]
    rfl

/-- Witness for C2 at a concrete input: one slug with last persisted day 1;
the cell of day 2 survives and the theorem yields `1 < 2`; a fresh slug's
cell is retained with its value. -/
theorem C2_witness :
    ((2 : ℤ), ("a" : String)) ∈ upsertKeys (filterNewRows
      ⟨[1, 2], ["a", "b"], fun d s => if s = "a" ∨ (s = "b" ∧ d = 1) then some 7 else none⟩
      (fun s => if s = "a" then some 1 else none)) ∧
    (1 : ℤ) < 2 ∧
    ((1 : ℤ), ("b" : String)) ∈ upsertKeys (filterNewRows
      ⟨[1, 2], ["a", "b"], fun d s => if s = "a" ∨ (s = "b" ∧ d = 1) then some 7 else none⟩
      (fun s => if s = "a" then some 1 else none)) := by
  refine ⟨by decide, ?_, ?_⟩
  · exact (C2_filter_new_rows
      ⟨[1, 2], ["a", "b"], fun d s => if s = "a" ∨ (s = "b" ∧ d = 1) then some 7 else none⟩
      (fun s => if s = "a" then some 1 else none)).1 2 "a" (by decide) 1 (by decide)
  · exact ((C2_filter_new_rows
      ⟨[1, 2], ["a", "b"], fun d s => if s = "a" ∨ (s = "b" ∧ d = 1) then some 7 else none⟩
      (fun s => if s = "a" then some 1 else none)).2 1 "b" 7 (by decide) (by decide)
        (by decide) (by decide)).1

-- ---------------------------------------------------------------------------
-- C9: the is_partial flag across a sequence of ingestion runs
-- ---------------------------------------------------------------------------

/-- The persisted `daily_interest` rows for one `(geo, slug)`:
`(day, interest, partial flag)`, keyed uniquely by day. -/
def upsertRowState (rows : List (ℤ × ℤ × Bool)) (d : ℤ) (v : ℤ) (b : Bool) :
    List (ℤ × ℤ × Bool) :=
  rows.filter (fun r => r.1 ≠ d) ++ [(d, v, b)]

/-- `MAX(day)` over the persisted rows (`get_last_days`). -/
def lastDayState (rows : List (ℤ × ℤ × Bool)) : Option ℤ :=
  rows.foldl (fun acc r =>
    match acc with
    | none => some r.1
    | some m => some (max m r.1)) none

/-- One ingestion run at date `runDate` for one slug, over the fetched daily
values `data`: `filter_new_rows_per_slug` keeps only days strictly after the
slug's last persisted day, and `upsert_rows` writes each kept day with
`is_partial = (day >= runDate - 1)` (`trends_daily/handler.py`). -/
def runIngestStep (rows : List (ℤ × ℤ × Bool)) (runDate : ℤ) (data : List (ℤ × ℚ)) :
    List (ℤ × ℤ × Bool) :=
  let ld := lastDayState rows
  let keep := data.filter (fun p =>
    match ld with
    | some D => decide (D < p.1)
    | none => true)
  keep.foldl (fun st p => upsertRowState st p.1 (pyRound p.2) (decide (runDate - 1 ≤ p.1))) rows

/-- The persisted state after a sequence of ingestion runs starting from an
empty table. -/
def runAll (runs : List (ℤ × List (ℤ × ℚ))) : List (ℤ × ℤ × Bool) :=
  runs.foldl (fun st r => runIngestStep st r.1 r.2) []

/-- C9 counterexample: a run at date 10 ingesting day 9 marks it partial
(9 ≥ 10−1); a later run at date 12 only writes days after the last persisted
day and never clears the flag, so in the reachable state after the second run
the row for day 9 — older than "yesterday" (12−1 = 11) — still carries
`is_partial = 1`, refuting the claimed state invariant. -/
theorem C9_counterexample :
    ((9 : ℤ), (5 : ℤ), true) ∈ runAll [(10, [(9, 5)]), (12, [(11, 5)])] ∧
    (9 : ℤ) < 12 - 1 := by
  constructor
  · decide
  · decide

theorem upsertRowState_mem (rows : List (ℤ × ℤ × Bool)) (d v b)
    (r : ℤ × ℤ × Bool) (h : r ∈ upsertRowState rows d v b) :
    r ∈ rows ∨ r = (d, v, b) := by
  unfold upsertRowState at h
  rw [List.mem_append] at h
  rcases h with h | h
  · exact Or.inl (List.mem_of_mem_filter h)
  · simp at h
    exact Or.inr h

theorem runIngest_fold_mem (runDate : ℤ) (ks : List (ℤ × ℚ))
    (st : List (ℤ × ℤ × Bool)) (r : ℤ × ℤ × Bool)
    (h : r ∈ ks.foldl (fun st p =>
      upsertRowState st p.1 (pyRound p.2) (decide (runDate - 1 ≤ p.1))) st) :
    r ∈ st ∨ ∃ p ∈ ks, r = (p.1, pyRound p.2, decide (runDate - 1 ≤ p.1)) := by
  induction ks generalizing st with
  | nil => exact Or.inl h
  | cons k ks ih =>
    rw [List.foldl_cons] at h
    rcases ih _ h with h' | ⟨p, hp, rfl⟩
    · rcases upsertRowState_mem _ _ _ _ _ h' with h'' | rfl
      · exact Or.inl h''
      · exact Or.inr ⟨k, List.mem_cons_self k ks, rfl⟩
    · exact Or.inr ⟨p, List.mem_cons_of_mem _ hp, rfl⟩

/-- C9 (amended): the write-time form of the invariant holds: every row
present after a run at date `R` either was already persisted before the run
(its flag untouched — stale flags are never cleared), or was written by this
run with `is_partial = (R − 1 ≤ day)`; hence no write ever marks a day older
than yesterday as partial. The stronger reachable-state invariant of the
claim fails because stale flags persist (see the counterexample). -/
theorem C9_amended_write_time (st : List (ℤ × ℤ × Bool)) (R : ℤ)
    (data : List (ℤ × ℚ)) (r : ℤ × ℤ × Bool)
    (h : r ∈ runIngestStep st R data) :
    r ∈ st ∨ r.2.2 = decide (R - 1 ≤ r.1) := by
  unfold runIngestStep at h
  rcases runIngest_fold_mem R _ st r h with h' | ⟨p, _, rfl⟩
  · exact Or.inl h'
  · exact Or.inr rfl

/-- Witness for C9's amended theorem at a concrete input. -/
theorem C9_amended_witness :
    ((9 : ℤ), (5 : ℤ), true) ∈ runIngestStep [] 10 [(9, 5)] ∧
    (((9 : ℤ), (5 : ℤ), true) ∈ ([] : List (ℤ × ℤ × Bool)) ∨
      ((9 : ℤ), (5 : ℤ), true).2.2 = decide ((10 : ℤ) - 1 ≤ ((9 : ℤ), (5 : ℤ), true).1)) :=
  ⟨by decide, C9_amended_write_time [] 10 [(9, 5)] (9, 5, true) (by decide)⟩

-- ---------------------------------------------------------------------------
-- C8: behaviour of the two scheduled entry points when no keywords are active
-- ---------------------------------------------------------------------------

/-- Observable outcome of one ingestion invocation
(`trends_daily/handler.py::lambda_handler`): HTTP-style status code, the
`error`/`note` body field, rows upserted, number of provider (trends) fetch
calls performed, and number of database rows written. -/
structure IngestResult where
  statusCode : ℕ
  errNote : Option String
  rowsUpserted : ℕ
  trendsFetches : ℕ
  dbWrites : ℕ
  deriving DecidableEq

/-- `lambda_handler` of `trends_daily/handler.py`, with the external world
supplied as data: `groupsDict` is the active keyword registry result,
`lastDays` the per-slug last persisted day, `fetched` the terms dataframe the
fetch strategy would produce together with the number of provider calls
`fetchCalls` it makes. The handler returns
`{"statusCode": 400, "error": "no_active_keywords"}` before any fetch or
write when the registry yields no groups; otherwise it fetches, aggregates
(`groups_from_terms_df`), filters (`filter_new_rows_per_slug`) and upserts. -/
def ingestRun (groupsDict : List (String × List String))
    (lastDays : String → Option ℤ) (fetched : GFrame) (fetchCalls : ℕ) : IngestResult :=
  if groupsDict.isEmpty then
    ⟨400, some "no_active_keywords", 0, 0, 0⟩
  else if fetched.days.isEmpty then
    ⟨200, some "rate_limited_or_no_data", 0, fetchCalls, 0⟩
  else
    let gdf := groupsFromTermsDf fetched groupsDict
    let gw := filterNewRows gdf lastDays
    let keys := upsertKeys gw
    if keys.isEmpty then ⟨200, some "no_new_rows", 0, fetchCalls, 0⟩
    else ⟨200, none, keys.length, fetchCalls, keys.length⟩

/-- Observable outcome of one forecaster invocation
(`trends_forecast/handler.py::lambda_handler`). -/
structure ForecastResult where
  statusCode : ℕ
  note : Option String
  rowsUpserted : ℕ
  dbWrites : ℕ
  deriving DecidableEq

/-- `lambda_handler` of `trends_forecast/handler.py` at the granularity the
no-keyword claim needs: with no active slugs it returns
`{"statusCode": 200, "note": "no_active_slugs"}` without writing; otherwise
it trains per slug and upserts `perSlug s` rows for each slug `s` (the
per-slug training/upserting supplied as data). -/
def forecastRun (slugs : List String) (perSlug : String → ℕ) : ForecastResult :=
  if slugs.isEmpty then ⟨200, some "no_active_slugs", 0, 0⟩
  else
    let total := (slugs.map perSlug).sum
    ⟨200, none, total, total⟩

/-- C8 counterexample: with an empty keyword registry the ingestion entry
point responds with `statusCode = 400` and body `{"error":
"no_active_keywords"}` — an error result, not the claimed clean success. -/
theorem C8_counterexample :
    (ingestRun [] (fun _ => none) ⟨[], [], fun _ _ => none⟩ 0).statusCode = 400 ∧
    (ingestRun [] (fun _ => none) ⟨[], [], fun _ _ => none⟩ 0).errNote =
      some "no_active_keywords" ∧
    (ingestRun [] (fun _ => none) ⟨[], [], fun _ _ => none⟩ 0).statusCode ≠ 200 := by
  refine ⟨by decide, by decide, by decide⟩

/-- C8 (amended): when the registry yields no active keywords/groups, both
scheduled entry points perform no provider fetches and no writes; the
forecast entry point completes as a clean 200 no-op
(`note = "no_active_slugs"`), but the ingestion entry point returns
`statusCode 400` with `error = "no_active_keywords"` — an error-shaped
response rather than the uniform success the claim states. -/
theorem C8_amended_no_keywords (groupsDict : List (String × List String))
    (lastDays : String → Option ℤ) (fetched : GFrame) (fetchCalls : ℕ)
    (slugs : List String) (perSlug : String → ℕ)
    (hg : groupsDict = []) (hs : slugs = []) :
    ingestRun groupsDict lastDays fetched fetchCalls =
      ⟨400, some "no_active_keywords", 0, 0, 0⟩ ∧
    forecastRun slugs perSlug = ⟨200, some "no_active_slugs", 0, 0⟩ := by
  subst hg hs
  constructor
  · rfl
  · rfl

/-- Witness for C8's amended theorem at a concrete input. -/
theorem C8_amended_witness :
    ingestRun [] (fun _ => none) ⟨[], [], fun _ _ => none⟩ 0 =
      ⟨400, some "no_active_keywords", 0, 0, 0⟩ ∧
    forecastRun [] (fun _ => 0) = ⟨200, some "no_active_slugs", 0, 0⟩ :=
  C8_amended_no_keywords [] (fun _ => none) ⟨[], [], fun _ _ => none⟩ 0 [] (fun _ => 0)
    rfl rfl

-- ---------------------------------------------------------------------------
-- C6: the overlapping-window schedule of make_windows / stitch_daily
-- ---------------------------------------------------------------------------

/-- The `while cur_start < end` loop of `make_windows`
(`trends_daily/handler.py`): append `(cur, min(cur+span-1, end))`; stop after
a window reaching `end`; otherwise advance by `step`. Fuel-indexed for
termination; `makeWindows` supplies ample fuel. -/
def makeWindowsAux (e span step : ℤ) : ℤ → ℕ → List (ℤ × ℤ)
  | _, 0 => []
  | cur, fuel + 1 =>
    if cur < e then
      let wEnd := min (cur + span - 1) e
      if e ≤ wEnd then [(cur, wEnd)]
      else (cur, wEnd) :: makeWindowsAux e span step (cur + step) fuel
    else []

/-- `make_windows(end, days_back, span_days, step_days)`. -/
def makeWindows (e : ℤ) (daysBack : ℕ) (span step : ℤ) : List (ℤ × ℤ) :=
  makeWindowsAux e span step (e - daysBack) (daysBack + 1)

/-- The window schedule of `stitch_daily`: span/step depend on the horizon
(`<=30 → (30,30)`, `<=60 → (60,60)`, else `(90,60)`). -/
def stitchWindows (e : ℤ) (daysBack : ℕ) : List (ℤ × ℤ) :=
  if daysBack ≤ 30 then makeWindows e daysBack 30 30
  else if daysBack ≤ 60 then makeWindows e daysBack 60 60
  else makeWindows e daysBack 90 60

theorem makeWindowsAux_stop (e span step : ℤ) (cur : ℤ) (fuel : ℕ)
    (h : e ≤ cur) : makeWindowsAux e span step cur fuel = [] := by
  cases fuel with
  | zero => rfl
  | succ f => simp [makeWindowsAux, not_lt.2 h]

theorem makeWindowsAux_head (e span step : ℤ) (cur : ℤ) (fuel : ℕ)
    (hf : 0 < fuel) (hc : cur < e) :
    (makeWindowsAux e span step cur fuel).head? =
      some (cur, min (cur + span - 1) e) := by
  cases fuel with
  | zero => omega
  | succ f =>
    rw [makeWindowsAux]
    simp only [hc, if_true]
    by_cases h : e ≤ min (cur + span - 1) e
    · simp [h]
    · simp [h]

/-- Structural relation between consecutive windows of the `(90, 60)`
schedule. -/
def WChain (e : ℤ) (w1 w2 : ℤ × ℤ) : Prop :=
  w2.1 = w1.1 + 60 ∧ w1.2 = w1.1 + 89 ∧ w2.2 = min (w2.1 + 89) e ∧
  w1.1 + 89 < e ∧ w2.1 < e

theorem makeWindowsAux90_chain (e : ℤ) :
    ∀ (fuel : ℕ) (cur : ℤ), cur < e →
      List.Chain' (WChain e) (makeWindowsAux e 90 60 cur fuel) := by
  intro fuel
  induction fuel with
  | zero => intro cur _; simp [makeWindowsAux]
  | succ f ih =>
    intro cur hc
    rw [makeWindowsAux]
    simp only [hc, if_true]
    by_cases hend : e ≤ min (cur + 90 - 1) e
    · simp [hend]
    · simp only [hend, if_false]
      have hlt : min (cur + 90 - 1) e < e := lt_of_not_le hend
      have hw : min (cur + 90 - 1) e = cur + 89 ∧ cur + 89 < e := by
        rcases le_total (cur + 90 - 1) e with h | h
        · rw [min_eq_left h] at hlt ⊢
          omega
        · rw [min_eq_right h] at hlt
          omega
      have hc' : cur + 60 < e := by omega
      rw [List.chain'_cons']
      refine ⟨?_, ih (cur + 60) hc'⟩
      intro b hb
      cases f with
      | zero => simp [makeWindowsAux] at hb
      | succ f' =>
        rw [makeWindowsAux_head e 90 60 (cur + 60) (f' + 1) (Nat.succ_pos f') hc'] at hb
        rw [Option.mem_def, Option.some_inj] at hb
        subst hb
        unfold WChain
        dsimp only
        refine ⟨rfl, by omega, by omega, by omega, hc'⟩

theorem small_schedule_single (e span : ℤ) (d : ℕ) (h1 : 1 ≤ d)
    (hd : (d : ℤ) ≤ span) :
    (makeWindowsAux e span span (e - d) (d + 1)).length ≤ 1 := by
  rw [makeWindowsAux]
  have hc : e - d < e := by omega
  simp only [hc, if_true]
  by_cases hend : e ≤ min (e - d + span - 1) e
  · simp [hend]
  · simp only [hend, if_false]
    have hlt : min (e - d + span - 1) e < e := lt_of_not_le hend
    have hspan : span ≤ (d : ℤ) := by
      rcases le_total (e - d + span - 1) e with h | h
      · rw [min_eq_left h] at hlt; omega
      · rw [min_eq_right h] at hlt; omega
    have hde : (d : ℤ) = span := le_antisymm hd hspan
    have : e - d + span = e := by omega
    rw [this, makeWindowsAux_stop e span span e d le_rfl]
    simp

/-- C6: whenever the window stitcher produces at least two windows for an
end date and a lookback horizon `days_back ≥ 1`, each pair of consecutive
windows overlaps by at least 30 (inclusive) days, consecutive starts are 60
days apart, and both windows of each pair span between 30 and 90 days. -/
theorem C6_window_overlap (e : ℤ) (daysBack : ℕ) (h1 : 1 ≤ daysBack)
    (h2 : 2 ≤ (stitchWindows e daysBack).length) :
    List.Chain' (fun w1 w2 : ℤ × ℤ =>
      30 ≤ min w1.2 w2.2 - max w1.1 w2.1 + 1 ∧ w2.1 - w1.1 = 60 ∧
      30 ≤ w1.2 - w1.1 + 1 ∧ w1.2 - w1.1 + 1 ≤ 90 ∧
      30 ≤ w2.2 - w2.1 + 1 ∧ w2.2 - w2.1 + 1 ≤ 90) (stitchWindows e daysBack) := by
  unfold stitchWindows at h2 ⊢
  by_cases hb1 : daysBack ≤ 30
  · exfalso
    simp only [hb1, if_true] at h2
    have := small_schedule_single e 30 daysBack h1 (by exact_mod_cast hb1)
    unfold makeWindows at h2
    omega
  · by_cases hb2 : daysBack ≤ 60
    · exfalso
      simp only [hb1, hb2, if_true, if_false] at h2
      have := small_schedule_single e 60 daysBack h1 (by exact_mod_cast hb2)
      unfold makeWindows at h2
      omega
    · simp only [hb1, hb2, if_false]
      have hc : e - (daysBack : ℤ) < e := by omega
      have hch := makeWindowsAux90_chain e (daysBack + 1) (e - daysBack) hc
      unfold makeWindows
      refine List.Chain'.imp ?_ hch
      intro w1 w2 hw
      obtain ⟨ha, hb, hcc, hd, he⟩ := hw
      refine ⟨?_, by omega, by omega, by omega, ?_, ?_⟩ <;> omega

/-- Witness for C6 at a concrete input: a 150-day horizon produces three
windows. -/
theorem C6_witness :
    2 ≤ (stitchWindows 0 150).length ∧
    List.Chain' (fun w1 w2 : ℤ × ℤ =>
      30 ≤ min w1.2 w2.2 - max w1.1 w2.1 + 1 ∧ w2.1 - w1.1 = 60 ∧
      30 ≤ w1.2 - w1.1 + 1 ∧ w1.2 - w1.1 + 1 ≤ 90 ∧
      30 ≤ w2.2 - w2.1 + 1 ∧ w2.2 - w2.1 + 1 ≤ 90) (stitchWindows 0 150) :=
  ⟨by decide, C6_window_overlap 0 150 (by decide) (by decide)⟩

-- ---------------------------------------------------------------------------
-- C7: overlap scale correction and merge averaging
-- ---------------------------------------------------------------------------

/-- A per-term daily series: its day index and its value on each day
(values outside `idx` are irrelevant). -/
structure QSeries where
  idx : List ℤ
  val : ℤ → ℚ

/-- `ref.index.intersection(cur.index)` (order of the left index kept). -/
def interIdx (r c : List ℤ) : List ℤ := r.filter (fun d => decide (d ∈ c))

/-- `np.median`: sort, take the middle element (odd length) or the mean of
the two middle elements (even length). -/
def medianQ (l : List ℚ) : ℚ :=
  let s := l.mergeSort (fun a b => decide (a ≤ b))
  let n := l.length
  if n = 0 then 0
  else if n % 2 = 1 then s.getD (n / 2) 0
  else (s.getD (n / 2 - 1) 0 + s.getD (n / 2) 0) / 2

/-- `overlap_scale_factor(ref, cur)` from `trends_daily/handler.py`:
fewer than 3 common days → 1; fewer than 3 days with both sides strictly
positive → epsilon-stabilised median ratio; otherwise the median of
`ref/cur` over the positive-overlap days; non-positive results fall back
to 1. (In exact arithmetic the `inf`/NaN replacement of the float code is
vacuous, since the masked denominators are strictly positive.) -/
def overlapScaleFactor (ref cur : QSeries) : ℚ :=
  let idx := interIdx ref.idx cur.idx
  if idx.length < 3 then 1
  else
    let maskIdx := idx.filter (fun d => decide (0 < ref.val d ∧ 0 < cur.val d))
    if maskIdx.length < 3 then
      let ratios := idx.map (fun d => (ref.val d + 1/1000000) / (cur.val d + 1/1000000))
      let r := medianQ ratios
      if 0 < r then r else 1
    else
      let ratios := maskIdx.map (fun d => ref.val d / cur.val d)
      if ratios.length = 0 then 1
      else
        let r := medianQ ratios
        if 0 < r then r else 1

/-- One merge step of `stitch_daily`:
`merged = concat([merged, df * scale]).groupby(level=0).mean()`: on common
days the average of the existing value and the scaled new value, otherwise
whichever side is present. -/
def mergeStep (m c : QSeries) (scale : ℚ) : QSeries :=
  { idx := m.idx ++ c.idx.filter (fun d => decide (d ∉ m.idx))
    val := fun d =>
      if d ∈ m.idx ∧ d ∈ c.idx then (m.val d + scale * c.val d) / 2
      else if d ∈ m.idx then m.val d
      else scale * c.val d }

theorem getD_mem_of_lt {l : List ℚ} {i : ℕ} (d : ℚ) (h : i < l.length) :
    l.getD i d ∈ l := by
  rw [List.getD_eq_getElem?_getD, List.getElem?_eq_getElem h]
  exact List.getElem_mem h

theorem medianQ_all_eq {l : List ℚ} {c : ℚ} (hne : l ≠ [])
    (hall : ∀ x ∈ l, x = c) : medianQ l = c := by
  unfold medianQ
  dsimp only
  have hlen : (l.mergeSort (fun a b => decide (a ≤ b))).length = l.length :=
    List.length_mergeSort l
  have hmem : ∀ x ∈ l.mergeSort (fun a b => decide (a ≤ b)), x = c := by
    intro x hx
    exact hall x (List.mem_mergeSort.1 hx)
  have hn : 0 < l.length := List.length_pos.2 hne
  have h0 : ¬ l.length = 0 := by omega
  simp only [h0, if_false]
  by_cases hpar : l.length % 2 = 1
  · simp only [hpar, if_true]
    exact hmem _ (getD_mem_of_lt 0 (by omega))
  · simp only [hpar, if_false]
    have h2 : 2 ≤ l.length := by omega
    have e1 : (l.mergeSort (fun a b => decide (a ≤ b))).getD (l.length / 2 - 1) 0 = c :=
      hmem _ (getD_mem_of_lt 0 (by omega))
    have e2 : (l.mergeSort (fun a b => decide (a ≤ b))).getD (l.length / 2) 0 = c :=
      hmem _ (getD_mem_of_lt 0 (by omega))
    rw [e1, e2]
    ring

/-- C7: when a new window's anchor values on an overlap of at least 3 days,
all strictly positive on the merged side, equal a constant positive multiple
`k` of the already-merged series there, the computed scale factor is exactly
`1/k`, and the scale-then-average merge reproduces the merged series' values
on every overlap day. -/
theorem C7_scale_correction (m c : QSeries) (k : ℚ) (hk : 0 < k)
    (hmul : ∀ d ∈ interIdx m.idx c.idx, c.val d = k * m.val d)
    (hpos : ∀ d ∈ interIdx m.idx c.idx, 0 < m.val d)
    (hlen : 3 ≤ (interIdx m.idx c.idx).length) :
    overlapScaleFactor m c = 1 / k ∧
    ∀ d ∈ interIdx m.idx c.idx,
      (mergeStep m c (overlapScaleFactor m c)).val d = m.val d := by
  have hk0 : k ≠ 0 := ne_of_gt hk
  have hscale : overlapScaleFactor m c = 1 / k := by
    unfold overlapScaleFactor
    dsimp only
    have hnl : ¬ (interIdx m.idx c.idx).length < 3 := by omega
    simp only [hnl, if_false]
    have hmask : (interIdx m.idx c.idx).filter
        (fun d => decide (0 < m.val d ∧ 0 < c.val d)) = interIdx m.idx c.idx := by
      rw [List.filter_eq_self]
      intro d hd
      have h1 : 0 < m.val d := hpos d hd
      have h2 : 0 < c.val d := by
        rw [hmul d hd]; exact mul_pos hk h1
      simp [h1, h2]
    rw [hmask]
    simp only [hnl, if_false]
    have hratios : ∀ x ∈ (interIdx m.idx c.idx).map (fun d => m.val d / c.val d),
        x = 1 / k := by
      intro x hx
      rcases List.mem_map.1 hx with ⟨d, hd, rfl⟩
      rw [hmul d hd]
      have h1 : m.val d ≠ 0 := ne_of_gt (hpos d hd)
      rw [mul_comm k (m.val d), ← mul_one (m.val d), mul_assoc]
      rw [mul_div_mul_left _ _ h1]
      simp
    have hne : (interIdx m.idx c.idx).map (fun d => m.val d / c.val d) ≠ [] :=
      List.length_pos.1 (by simp only [List.length_map]; omega)
    have hlen0 : ¬ ((interIdx m.idx c.idx).map (fun d => m.val d / c.val d)).length = 0 := by
      simp only [List.length_map]
      omega
    simp only [hlen0, if_false]
    rw [medianQ_all_eq hne hratios]
    have : (0:ℚ) < 1 / k := by positivity
    rw [if_pos this]
  refine ⟨hscale, ?_⟩
  intro d hd
  have hdm : d ∈ m.idx := List.mem_of_mem_filter hd
  have hdc : d ∈ c.idx := by
    have := (List.mem_filter.1 hd).2
    simpa using this
  unfold mergeStep
  dsimp only
  rw [if_pos ⟨hdm, hdc⟩, hscale, hmul d hd]
  have h1 : m.val d ≠ 0 := ne_of_gt (hpos d hd)
  field_simp

/-- Witness for C7 at a concrete input: the new window is twice the merged
series on a 3-day overlap, so the scale factor is `1/2`. -/
theorem C7_witness :
    (0:ℚ) < 2 ∧
    overlapScaleFactor ⟨[0, 1, 2], fun _ => 5⟩ ⟨[0, 1, 2], fun _ => 10⟩ = 1 / 2 :=
  ⟨by norm_num,
    (C7_scale_correction ⟨[0, 1, 2], fun _ => 5⟩ ⟨[0, 1, 2], fun _ => 10⟩ 2
      (by norm_num) (by decide) (by decide) (by decide)).1⟩

-- ---------------------------------------------------------------------------
-- C3: slug derivations (ingestion handler vs forecaster loader vs data model)
-- ---------------------------------------------------------------------------

/-!
Human group names are modelled as lists of ASCII codepoints (ℕ): 32 is the
space, 95 the underscore. Python's `str.lower`/`str.isalnum`/`str.strip` and
MySQL's `LOWER`/`TRIM`/`REPLACE` agree with the ASCII-level model below on
ASCII input.
-/

/-- ASCII lowercase (`str.lower` / SQL `LOWER` on ASCII). -/
def lowerN (n : ℕ) : ℕ := if 65 ≤ n ∧ n ≤ 90 then n + 32 else n

/-- ASCII `str.isalnum`. -/
def isAlnumN (n : ℕ) : Bool :=
  decide ((48 ≤ n ∧ n ≤ 57) ∨ (65 ≤ n ∧ n ≤ 90) ∨ (97 ≤ n ∧ n ≤ 122))

/-- ASCII whitespace stripped by Python `str.strip()`. -/
def isSpaceN (n : ℕ) : Bool := decide (n = 32 ∨ (9 ≤ n ∧ n ≤ 13))

/-- `REPLACE(s, ' ', '_')`. -/
def replCh (n : ℕ) : ℕ := if n = 32 then 95 else n

/-- Strip a predicate from both ends (`str.strip(...)` / SQL `TRIM`). -/
def trimBy (p : ℕ → Bool) (l : List ℕ) : List ℕ :=
  ((l.dropWhile p).reverse.dropWhile p).reverse

/-- `slugify_group(name)` from `trends_daily/handler.py`:
`s = name.lower().strip()`, then every non-alphanumeric character becomes
`_`, truncate to 64 characters, strip leading/trailing underscores. -/
def slugifyGroup (name : List ℕ) : List ℕ :=
  let s := trimBy isSpaceN (name.map lowerN)
  trimBy (fun n => decide (n = 95))
    ((s.map (fun n => if isAlnumN n then n else 95)).take 64)

/-- The slug computed by the forecasters' loaders
(`load_active_group_slugs` / `load_active_slugs`):
`LOWER(TRIM(REPLACE(group_name, ' ', '_')))` in SQL, then Python
`.strip("_")`. -/
def loaderSlug (name : List ℕ) : List ℕ :=
  trimBy (fun n => decide (n = 95))
    ((trimBy (fun n => decide (n = 32)) (name.map replCh)).map lowerN)

/-- The §3 data-model derivation: lowercase, trim, spaces→underscore, strip
leading/trailing underscores. -/
def specSlug (name : List ℕ) : List ℕ :=
  trimBy (fun n => decide (n = 95))
    ((trimBy (fun n => decide (n = 32)) (name.map lowerN)).map replCh)

/-- C3 counterexample: on the name `"a-b"` (codepoints `[97, 45, 98]`) the
ingestion handler's `slugify_group` yields `"a_b"` (it maps every
non-alphanumeric character to `_`), while the forecasters' SQL loader yields
`"a-b"` (it only replaces spaces), so the two slug derivations disagree and
the claimed three-way equality fails. -/
theorem C3_counterexample :
    slugifyGroup [97, 45, 98] = [97, 95, 98] ∧
    loaderSlug [97, 45, 98] = [97, 45, 98] ∧
    ¬ (slugifyGroup [97, 45, 98] = loaderSlug [97, 45, 98]) := by
  refine ⟨by decide, by decide, by decide⟩

/-- A character the three derivations treat alike: ASCII alphanumeric or the
space. -/
def OkChar (n : ℕ) : Prop :=
  (48 ≤ n ∧ n ≤ 57) ∨ (65 ≤ n ∧ n ≤ 90) ∨ (97 ≤ n ∧ n ≤ 122) ∨ n = 32

theorem okChar_lowerN {n : ℕ} (h : OkChar n) : OkChar (lowerN n) := by
  unfold OkChar at h ⊢
  unfold lowerN
  split_ifs <;> omega

theorem lowerN_eq_32_iff (n : ℕ) : lowerN n = 32 ↔ n = 32 := by
  unfold lowerN
  split_ifs with h <;> omega

theorem lowerN_comm_replCh (n : ℕ) : lowerN (replCh n) = replCh (lowerN n) := by
  unfold lowerN replCh
  split_ifs <;> omega

theorem replCh_ne_32 (n : ℕ) : replCh n ≠ 32 := by
  unfold replCh
  split_ifs <;> omega

theorem dropWhile_congr_mem {p q : ℕ → Bool} :
    ∀ {l : List ℕ}, (∀ x ∈ l, p x = q x) → l.dropWhile p = l.dropWhile q
  | [], _ => rfl
  | a :: t, h => by
    have ha := h a (List.mem_cons_self a t)
    rw [List.dropWhile_cons, List.dropWhile_cons, ha]
    by_cases hq : q a = true
    · rw [if_pos hq, if_pos hq]
      exact dropWhile_congr_mem (fun x hx => h x (List.mem_cons_of_mem a hx))
    · rw [if_neg hq, if_neg hq]

theorem dropWhile_of_all_false {p : ℕ → Bool} {l : List ℕ}
    (h : ∀ x ∈ l, p x = false) : l.dropWhile p = l := by
  cases l with
  | nil => rfl
  | cons a t =>
    rw [List.dropWhile_cons, if_neg]
    rw [h a (List.mem_cons_self a t)]
    simp

theorem mem_dropWhile {p : ℕ → Bool} {l : List ℕ} {x : ℕ}
    (h : x ∈ l.dropWhile p) : x ∈ l :=
  (List.dropWhile_suffix p).sublist.mem h

theorem mem_trimBy {p : ℕ → Bool} {l : List ℕ} {x : ℕ}
    (h : x ∈ trimBy p l) : x ∈ l := by
  unfold trimBy at h
  rw [List.mem_reverse] at h
  have h1 := mem_dropWhile h
  rw [List.mem_reverse] at h1
  exact mem_dropWhile h1

theorem trimBy_congr_mem {p q : ℕ → Bool} {l : List ℕ}
    (h : ∀ x ∈ l, p x = q x) : trimBy p l = trimBy q l := by
  unfold trimBy
  rw [dropWhile_congr_mem h]
  congr 1
  refine dropWhile_congr_mem ?_
  intro x hx
  rw [List.mem_reverse] at hx
  exact h x (mem_dropWhile hx)

theorem trimBy_of_all_false {p : ℕ → Bool} {l : List ℕ}
    (h : ∀ x ∈ l, p x = false) : trimBy p l = l := by
  unfold trimBy
  rw [dropWhile_of_all_false h]
  rw [dropWhile_of_all_false (fun x hx => h x (List.mem_reverse.1 hx))]
  exact List.reverse_reverse l

theorem dropWhile_map_comm {p : ℕ → Bool} {f : ℕ → ℕ}
    (hf : ∀ x, p (f x) = p x) :
    ∀ (l : List ℕ), (l.map f).dropWhile p = (l.dropWhile p).map f
  | [] => rfl
  | a :: t => by
    rw [List.map_cons, List.dropWhile_cons, List.dropWhile_cons, hf a]
    by_cases hp : p a = true
    · rw [if_pos hp, if_pos hp]
      exact dropWhile_map_comm hf t
    · rw [if_neg hp, if_neg hp, List.map_cons]

theorem trimBy_map_comm {p : ℕ → Bool} {f : ℕ → ℕ}
    (hf : ∀ x, p (f x) = p x) (l : List ℕ) :
    trimBy p (l.map f) = (trimBy p l).map f := by
  unfold trimBy
  rw [dropWhile_map_comm hf, ← List.map_reverse, dropWhile_map_comm hf, List.map_reverse]

theorem dropWhile95_map_replCh :
    ∀ {l : List ℕ}, (∀ x ∈ l, OkChar x) →
      (l.map replCh).dropWhile (fun n => decide (n = 95)) =
        (l.dropWhile (fun n => decide (n = 32))).map replCh
  | [], _ => rfl
  | a :: t, h => by
    have ha := h a (List.mem_cons_self a t)
    have ht := fun x hx => h x (List.mem_cons_of_mem a hx)
    rw [List.map_cons, List.dropWhile_cons, List.dropWhile_cons]
    by_cases h32 : a = 32
    · subst h32
      have : replCh 32 = 95 := rfl
      rw [this]
      simp only [decide_eq_true_eq, if_pos rfl, if_pos rfl]
      exact dropWhile95_map_replCh ht
    · have hne95 : replCh a ≠ 95 := by
        unfold OkChar at ha
        unfold replCh
        rw [if_neg h32]
        omega
      simp only [decide_eq_true_eq, if_neg hne95, if_neg h32, List.map_cons]

theorem trimBy95_map_replCh {l : List ℕ} (h : ∀ x ∈ l, OkChar x) :
    trimBy (fun n => decide (n = 95)) (l.map replCh) =
      (trimBy (fun n => decide (n = 32)) l).map replCh := by
  unfold trimBy
  rw [dropWhile95_map_replCh h, ← List.map_reverse]
  rw [dropWhile95_map_replCh (fun x hx =>
    h x (mem_dropWhile (List.mem_reverse.1 hx)))]
  rw [List.map_reverse]

theorem dropWhile_idem {p : ℕ → Bool} :
    ∀ (l : List ℕ), (l.dropWhile p).dropWhile p = l.dropWhile p
  | [] => rfl
  | a :: t => by
    rw [List.dropWhile_cons]
    by_cases hp : p a = true
    · rw [if_pos hp]
      exact dropWhile_idem t
    · rw [if_neg hp, List.dropWhile_cons, if_neg hp]

theorem dropWhile_head_false {p : ℕ → Bool} :
    ∀ {l : List ℕ} {a : ℕ} {t : List ℕ}, l.dropWhile p = a :: t → p a = false
  | [], a, t, h => by simp at h
  | b :: s, a, t, h => by
    rw [List.dropWhile_cons] at h
    by_cases hp : p b = true
    · rw [if_pos hp] at h
      exact dropWhile_head_false h
    · rw [if_neg hp] at h
      rw [List.cons.injEq] at h
      rw [← h.1]
      simpa using hp

theorem trimBy_prefix_dropWhile (p : ℕ → Bool) (l : List ℕ) :
    trimBy p l <+: l.dropWhile p := by
  unfold trimBy
  have su := List.dropWhile_suffix (l := (l.dropWhile p).reverse) p
  exact List.reverse_suffix.1 (by rw [List.reverse_reverse]; exact su)

theorem dropWhile_trimBy {p : ℕ → Bool} (l : List ℕ) :
    (trimBy p l).dropWhile p = trimBy p l := by
  cases htr : trimBy p l with
  | nil => rfl
  | cons a t =>
    have hpre := trimBy_prefix_dropWhile p l
    rw [htr] at hpre
    rcases hpre with ⟨r, hr⟩
    have hfa : p a = false := dropWhile_head_false (l := l) (by rw [← hr]; rfl)
    rw [List.dropWhile_cons, hfa]
    simp

theorem trimBy_idem (p : ℕ → Bool) (l : List ℕ) :
    trimBy p (trimBy p l) = trimBy p l := by
  conv_lhs => rw [trimBy]
  rw [dropWhile_trimBy]
  have hrev : (trimBy p l).reverse = ((l.dropWhile p).reverse).dropWhile p := by
    unfold trimBy
    rw [List.reverse_reverse]
  rw [hrev, dropWhile_idem, ← hrev, List.reverse_reverse]

theorem length_trimBy_le (p : ℕ → Bool) (l : List ℕ) :
    (trimBy p l).length ≤ l.length := by
  unfold trimBy
  rw [List.length_reverse]
  calc ((l.dropWhile p).reverse.dropWhile p).length
      ≤ (l.dropWhile p).reverse.length := (List.dropWhile_suffix p).sublist.length_le
    _ = (l.dropWhile p).length := List.length_reverse _
    _ ≤ l.length := (List.dropWhile_suffix p).sublist.length_le

/-- C3 (amended): the three slug derivations coincide on every group name
whose characters are ASCII alphanumerics or spaces and whose length is at
most 64; in general they differ, because `slugify_group` additionally maps
every non-alphanumeric character to `_` and truncates to 64 characters while
the SQL loader (and the §3 description) replace only spaces (see the
counterexample). -/
theorem C3_amended_slug_agreement (name : List ℕ)
    (hok : ∀ n ∈ name, OkChar n) (hlen : name.length ≤ 64) :
    slugifyGroup name = loaderSlug name ∧ loaderSlug name = specSlug name := by
  have hok0 : ∀ x ∈ name.map lowerN, OkChar x := by
    intro x hx
    rcases List.mem_map.1 hx with ⟨n, hn, rfl⟩
    exact okChar_lowerN (hok n hn)
  -- the loader slug reduces to trimming underscores after replace∘lower
  have hloader : loaderSlug name =
      trimBy (fun n => decide (n = 95)) ((name.map lowerN).map replCh) := by
    unfold loaderSlug
    have hnosp : ∀ x ∈ name.map replCh, (fun n => decide (n = 32)) x = false := by
      intro x hx
      rcases List.mem_map.1 hx with ⟨n, _, rfl⟩
      exact decide_eq_false (replCh_ne_32 n)
    rw [trimBy_of_all_false hnosp, List.map_map, List.map_map]
    congr 1
    exact List.map_congr_left (fun a _ => lowerN_comm_replCh a)
  -- the spec slug reduces to replace∘(trim spaces)∘lower
  have hspec : specSlug name =
      (trimBy (fun n => decide (n = 32)) (name.map lowerN)).map replCh := by
    unfold specSlug
    rw [trimBy95_map_replCh (fun x hx => hok0 x (mem_trimBy hx))]
    rw [trimBy_idem]
  -- the loader slug reduces to the same normal form
  have hloader' : loaderSlug name =
      (trimBy (fun n => decide (n = 32)) (name.map lowerN)).map replCh := by
    rw [hloader, trimBy95_map_replCh hok0]
  -- the ingestion slug also reduces to the spec form under the hypotheses
  have hslug : slugifyGroup name = specSlug name := by
    unfold slugifyGroup specSlug
    dsimp only
    have htr : trimBy isSpaceN (name.map lowerN) =
        trimBy (fun n => decide (n = 32)) (name.map lowerN) := by
      refine trimBy_congr_mem ?_
      intro x hx
      have hx' := hok0 x hx
      by_cases h32 : x = 32
      · subst h32; decide
      · have hnot : ¬ (x = 32 ∨ (9 ≤ x ∧ x ≤ 13)) := by
          unfold OkChar at hx'
          omega
        rw [show isSpaceN x = false from decide_eq_false hnot,
          decide_eq_false h32]
    rw [htr]
    have hmapeq : (trimBy (fun n => decide (n = 32)) (name.map lowerN)).map
        (fun n => if isAlnumN n then n else 95) =
        (trimBy (fun n => decide (n = 32)) (name.map lowerN)).map replCh := by
      refine List.map_congr_left ?_
      intro x hx
      have hx' := hok0 x (mem_trimBy hx)
      by_cases h32 : x = 32
      · subst h32; decide
      · have halnum : isAlnumN x = true := by
          unfold OkChar at hx'
          unfold isAlnumN
          rw [decide_eq_true_eq]
          omega
        rw [if_pos halnum]
        unfold replCh
        rw [if_neg h32]
    rw [hmapeq, List.take_of_length_le]
    rw [List.length_map]
    calc (trimBy (fun n => decide (n = 32)) (name.map lowerN)).length
        ≤ (name.map lowerN).length := length_trimBy_le _ _
      _ = name.length := List.length_map _ _
      _ ≤ 64 := hlen
  exact ⟨by rw [hslug, hspec, hloader'], by rw [hspec, hloader']⟩

instance (n : ℕ) : Decidable (OkChar n) := by
  unfold OkChar
  infer_instance

/-- Witness for C3's amended theorem at a concrete input (`"a B"`,
codepoints `[97, 32, 66]`). -/
theorem C3_amended_witness :
    (∀ n ∈ [97, 32, 66], OkChar n) ∧ List.length [97, 32, 66] ≤ 64 ∧
    (slugifyGroup [97, 32, 66] = loaderSlug [97, 32, 66] ∧
      loaderSlug [97, 32, 66] = specSlug [97, 32, 66]) :=
  ⟨by decide, by decide, C3_amended_slug_agreement [97, 32, 66] (by decide) (by decide)⟩

-- ---------------------------------------------------------------------------
-- C4: an all-zero 150-day history forecasts 7 zeros
-- ---------------------------------------------------------------------------

/-- The regularised normal matrix `X^T X + max(1e-6, alpha) * I` solved by
`ridge_fit` (`TrendGlueJob.py`). -/
def ridgeMatrix {m n : ℕ} (X : Matrix (Fin m) (Fin n) ℚ) (alpha : ℚ) :
    Matrix (Fin n) (Fin n) ℚ :=
  X.transpose * X + (max (1/1000000) alpha) • (1 : Matrix (Fin n) (Fin n) ℚ)

/-- Contract of `ridge_fit(X, y, alpha)`: `np.linalg.solve` on the (always
nonsingular, positive-definite) regularised normal equations; in exact
arithmetic the returned weights are exactly a solution of
`(X^T X + max(1e-6, alpha) I) w = X^T y`. -/
def RidgeSol {m n : ℕ} (X : Matrix (Fin m) (Fin n) ℚ) (y : Fin m → ℚ)
    (alpha : ℚ) (w : Fin n → ℚ) : Prop :=
  (ridgeMatrix X alpha).mulVec w = X.transpose.mulVec y

/-- The binarised gate target `(y > EPS_ZERO).astype(float)` of
`fit_zero_gate`. -/
def binarize {m : ℕ} (y : Fin m → ℚ) : Fin m → ℚ :=
  fun i => if EPS_ZERO < y i then 1 else 0

/-- `fit_zero_gate(X_full, y, alpha)` from `TrendGlueJob.py`. -/
def FitZeroGate {m n : ℕ} (X : Matrix (Fin m) (Fin n) ℚ) (y : Fin m → ℚ)
    (alpha : ℚ) (w : Fin n → ℚ) : Prop :=
  RidgeSol X (binarize y) alpha w

theorem dotProduct_self_nonneg_q {k : ℕ} (v : Fin k → ℚ) :
    0 ≤ Matrix.dotProduct v v := by
  unfold Matrix.dotProduct
  exact Finset.sum_nonneg fun i _ => mul_self_nonneg (v i)

/-- The ridge system has only the zero solution when the target is zero:
positive-definiteness of `X^T X + c I` (`c > 0`) in exact arithmetic. -/
theorem ridgeSol_zero_target {m n : ℕ} (X : Matrix (Fin m) (Fin n) ℚ)
    (alpha : ℚ) (w : Fin n → ℚ)
    (hsol : RidgeSol X (fun _ => 0) alpha w) : w = 0 := by
  unfold RidgeSol ridgeMatrix at hsol
  have hz : X.transpose.mulVec (fun _ => (0:ℚ)) = 0 := by
    have : (fun _ => (0:ℚ)) = (0 : Fin m → ℚ) := rfl
    rw [this, Matrix.mulVec_zero]
  rw [hz] at hsol
  set c := max (1/1000000 : ℚ) alpha with hc
  have hcpos : 0 < c := lt_of_lt_of_le (by norm_num) (le_max_left _ _)
  have hdot : Matrix.dotProduct w ((X.transpose * X + c • (1 : Matrix (Fin n) (Fin n) ℚ)).mulVec w) = 0 := by
    rw [hsol]
    simp [Matrix.dotProduct]
  rw [Matrix.add_mulVec, Matrix.dotProduct_add, Matrix.smul_mulVec_assoc,
    Matrix.one_mulVec, Matrix.dotProduct_smul] at hdot
  have hXtX : Matrix.dotProduct w ((X.transpose * X).mulVec w) =
      Matrix.dotProduct (X.mulVec w) (X.mulVec w) := by
    rw [← Matrix.mulVec_mulVec, Matrix.dotProduct_mulVec, Matrix.vecMul_transpose]
  rw [hXtX] at hdot
  have h1 : 0 ≤ Matrix.dotProduct (X.mulVec w) (X.mulVec w) :=
    dotProduct_self_nonneg_q _
  have h2 : 0 ≤ Matrix.dotProduct w w := dotProduct_self_nonneg_q _
  have hww : Matrix.dotProduct w w = 0 := by
    rcases lt_or_eq_of_le h2 with hlt | heq
    · exfalso
      have : 0 < c • Matrix.dotProduct w w := by
        rw [smul_eq_mul]
        exact mul_pos hcpos hlt
      linarith
    · exact heq.symm
  exact Matrix.dotProduct_self_eq_zero.1 hww

/-- `VAL_DAYS = 14` from `TrendGlueJob.py`. -/
def VAL_DAYS : ℕ := 14

/-- The target column of `make_design_matrix` after `dropna`: the maximal lag
is 35, so exactly the first 35 rows carry a NaN feature (every other
engineered column is `fillna`-ed or always defined), and `y_tgt` is the
series with its first 35 values dropped. -/
def designTarget (s : List ℚ) : List ℚ := s.drop 35

/-- The train/validation split of `forecast_series_two_stage`:
`split = n - VAL_DAYS if n > VAL_DAYS + 10 else int(n*0.8)`, then clamped to
`[10, n-2]` (the float multiplication is exact at the sizes involved). -/
def splitOf (n : ℕ) : ℕ :=
  max 10 (min (if VAL_DAYS + 10 < n then n - VAL_DAYS else (4 * n) / 5) (n - 2))

/-- `TAU_NEIGHBOR_FACTORS = [0.7, 0.85, 1.0, 1.15, 1.3]`. -/
def TAU_NEIGHBOR_FACTORS : List ℚ := [7/10, 17/20, 1, 23/20, 13/10]

/-- The candidate thresholds of the grid search:
`tau = clip(tau0 * f, 0.25, 0.90)`. -/
def gridTau (tau0 f : ℚ) : ℚ := clipQ (tau0 * f) (1/4) (9/10)

theorem gridTau_ge (tau0 f : ℚ) : 1/4 ≤ gridTau tau0 f := by
  unfold gridTau clipQ
  exact le_min (by norm_num) (le_max_left _ _)

theorem dotQ_zeros_right :
    ∀ (x w : List ℚ), (∀ v ∈ w, v = 0) → dotQ x w = 0
  | [], _, _ => rfl
  | _ :: _, [], _ => rfl
  | a :: x, b :: w, h => by
    have hb : b = 0 := h b (List.mem_cons_self b w)
    have ht := dotQ_zeros_right x w (fun v hv => h v (List.mem_cons_of_mem b hv))
    unfold dotQ at ht ⊢
    rw [List.zipWith_cons_cons, List.sum_cons, hb, mul_zero, zero_add]
    exact ht

theorem takeWhile_all {p : ℚ → Bool} :
    ∀ {l : List ℚ}, (∀ x ∈ l, p x = true) → l.takeWhile p = l
  | [], _ => rfl
  | a :: t, h => by
    rw [List.takeWhile_cons, h a (List.mem_cons_self a t)]
    simp only [if_true]
    rw [takeWhile_all (fun x hx => h x (List.mem_cons_of_mem a hx))]

theorem trailingZeroRun_all_zero {vals : List ℚ} (h : ∀ v ∈ vals, v = 0)
    (hlen : 30 ≤ vals.length) : trailingZeroRun vals = 30 := by
  unfold trailingZeroRun
  have htw : vals.reverse.takeWhile (fun v => decide (|v| < EPS_ZERO)) = vals.reverse := by
    refine takeWhile_all ?_
    intro x hx
    have hx0 : x = 0 := h x (List.mem_reverse.1 hx)
    subst hx0
    simp only [decide_eq_true_eq, abs_zero]
    norm_num [EPS_ZERO]
  rw [htw, List.length_reverse]
  rw [min_eq_right]
  exact_mod_cast hlen

theorem stepEmit_zero_gate (P : Prims) (hexp : P.exp 0 = 1)
    (xstd wReg : List ℚ) (wG : List ℚ) (hwg : ∀ v ∈ wG, v = 0)
    (m14 pnz tauDyn : ℚ) (htd : 1/2 < tauDyn) :
    stepEmit P xstd wG wReg m14 pnz tauDyn = 0 := by
  have hp : gateProb P xstd wG = 1/2 := by
    unfold gateProb
    rw [dotQ_zeros_right xstd wG hwg]
    norm_num
    rw [hexp]
    norm_num
  unfold stepEmit
  rw [hp]
  dsimp only
  rw [if_pos htd]
  simp

theorem recursiveForecastGate_all_zero (P : Prims) (hexp : P.exp 0 = 1) :
    ∀ (horizon : ℕ) (vals : List ℚ), (∀ v ∈ vals, v = 0) → 30 ≤ vals.length →
    ∀ (wd : ℕ) (tStart : ℤ) (wG wReg mu sd : List ℚ), (∀ v ∈ wG, v = 0) →
    ∀ (tau : ℚ), 1/4 ≤ tau →
    recursiveForecastGate P vals wd tStart horizon wG wReg mu sd tau =
      List.replicate horizon 0 := by
  intro horizon
  induction horizon with
  | zero => intro vals _ _ wd tStart wG wReg mu sd _ tau _; rfl
  | succ h ih =>
    intro vals hz hlen wd tStart wG wReg mu sd hwg tau htau
    rw [recursiveForecastGate]
    have hzr : trailingZeroRun vals = 30 := trailingZeroRun_all_zero hz hlen
    have hcst : DYN_TAU_K * ((30:ℚ) / (30 + 4)) = 9/34 := by
      norm_num [DYN_TAU_K]
    have htd : 1/2 < clipQ (tau + DYN_TAU_K * (trailingZeroRun vals /
        (trailingZeroRun vals + 4))) (1/20) (19/20) := by
      rw [hzr, hcst]
      unfold clipQ
      rw [lt_min_iff]
      constructor
      · norm_num
      · have : (1:ℚ)/2 < tau + 9/34 := by linarith
        exact lt_of_lt_of_le this (le_max_right _ _)
    have hhead : stepEmit P (stdApply (featureVec P wd vals tStart) mu sd) wG wReg
        (maxQ (lastVals vals 14)) (prevNz vals)
        (clipQ (tau + DYN_TAU_K * (trailingZeroRun vals /
          (trailingZeroRun vals + 4))) (1/20) (19/20)) = 0 :=
      stepEmit_zero_gate P hexp _ wReg wG hwg _ _ _ htd
    rw [hhead]
    rw [List.replicate_succ]
    congr 1
    refine ih (vals ++ [0]) ?_ ?_ ((wd + 1) % 7) (tStart + 1) wG wReg mu sd hwg tau htau
    · intro v hv
      rcases List.mem_append.1 hv with hv | hv
      · exact hz v hv
      · simpa using hv
    · rw [List.length_append]
      simp only [List.length_singleton]
      omega

/-- C4: for a 150-day history of constant zeros (≥ `MIN_TRAIN_DAYS = 120`, so
the slug is not skipped), the two-stage forecaster emits a 7-day forecast of
all zeros: whatever design matrix the pipeline builds, the gate weights it
fits (`fit_zero_gate` on the all-zero training target) are the zero vector,
every grid-search threshold is at least `0.25`, and then every recursive step
gates to zero (`p = 1/2 < tau_dyn ≥ 0.25 + 0.3·30/34`), regardless of the
regression weights and standardisation parameters. -/
theorem C4_zero_history_zero_forecast (P : Prims) (hexp : P.exp 0 = 1)
    (s : List ℚ) (hs : s = List.replicate 150 0)
    {mtr nf : ℕ} (X : Matrix (Fin mtr) (Fin nf) ℚ) (yTrain : Fin mtr → ℚ)
    (hyt : ∀ i : Fin mtr, yTrain i =
      ((designTarget s).take (splitOf (designTarget s).length)).getD i 0)
    (wGate : Fin nf → ℚ) (hw : FitZeroGate X yTrain (1/2) wGate)
    (wReg mu sd : List ℚ) (tau0 tau : ℚ)
    (htau : tau ∈ TAU_NEIGHBOR_FACTORS.map (gridTau tau0))
    (wd : ℕ) (tStart : ℤ) :
    recursiveForecastGate P s wd tStart 7 (List.ofFn wGate) wReg mu sd tau =
      List.replicate 7 0 := by
  have hy0 : ∀ i, yTrain i = 0 := by
    intro i
    rw [hyt i, hs]
    unfold designTarget
    rw [List.drop_replicate, List.take_replicate]
    rw [List.getD_eq_getElem?_getD, List.getElem?_replicate]
    split_ifs <;> rfl
  have hb : binarize yTrain = (fun _ => 0) := by
    funext i
    unfold binarize
    rw [hy0 i, if_neg]
    norm_num [EPS_ZERO]
  have hw0 : wGate = 0 := by
    unfold FitZeroGate at hw
    rw [hb] at hw
    exact ridgeSol_zero_target X _ wGate hw
  have hwl : ∀ v ∈ List.ofFn wGate, v = 0 := by
    intro v hv
    rw [hw0] at hv
    rcases (List.mem_ofFn _ _).1 hv with ⟨i, rfl⟩
    rfl
  have htau' : 1/4 ≤ tau := by
    rcases List.mem_map.1 htau with ⟨f, _, rfl⟩
    exact gridTau_ge tau0 f
  refine recursiveForecastGate_all_zero P hexp 7 s ?_ ?_ wd tStart _ wReg mu sd hwl tau htau'
  · intro v hv
    rw [hs] at hv
    exact (List.eq_of_mem_replicate hv)
  · rw [hs, List.length_replicate]
    omega

set_option maxRecDepth 4000 in
/-- Witness for C4 at a concrete input. -/
theorem C4_witness :
    ((Prims.mk (fun _ => 1) (fun _ => 0) (fun _ => 0) 0).exp 0 = 1) ∧
    ((1:ℚ)/4 ∈ TAU_NEIGHBOR_FACTORS.map (gridTau (1/4))) ∧
    recursiveForecastGate (Prims.mk (fun _ => 1) (fun _ => 0) (fun _ => 0) 0)
      (List.replicate 150 0) 0 0 7 (List.ofFn (0 : Fin 1 → ℚ)) [] [] [] (1/4) =
      List.replicate 7 0 := by
  have hwX : FitZeroGate (0 : Matrix (Fin 1) (Fin 1) ℚ) (fun _ => 0) (1/2) 0 := by
    unfold FitZeroGate RidgeSol
    rw [Matrix.mulVec_zero, Matrix.transpose_zero, Matrix.zero_mulVec]
  refine ⟨rfl, by decide, ?_⟩
  exact C4_zero_history_zero_forecast
    (Prims.mk (fun _ => 1) (fun _ => 0) (fun _ => 0) 0) rfl
    (List.replicate 150 0) rfl (0 : Matrix (Fin 1) (Fin 1) ℚ) (fun _ => 0)
    (by decide) 0 hwX [] [] [] (1/4) (1/4) (by decide) 0 0
